import Mathlib

/-!
Verification of the statistical core of the PTM-anchor repository.

This file shallowly embeds the statistical routines of the repository
(compare_groups.py, stats_plot.py, batch_stats.py, meta_merge.py,
anchor_coupling.py) and proves theorems settling the specification claims
about them.  All definitions come first, followed by the theorems.

Python floats are modelled as exact rationals (`ℚ`) where the code only
performs field operations and comparisons, and as real numbers (`ℝ`) where
transcendental functions (`log`, `sqrt`) appear.  Python arbitrary-precision
integers are modelled as `ℕ`/`ℤ`.
-/

/-- Python's two-argument `min` on rationals: `min(a, b)` returns `a`
whenever `a ≤ b` and `b` otherwise.  Written with an explicit `if` so that
concrete runs reduce inside the kernel. -/
def ratMin (a b : ℚ) : ℚ := if a ≤ b then a else b

namespace CompareGroups

/-!
The function `compare_groups.multiple_testing_correction` (compare_groups.py, lines 136-169).

The source sorts the `(original_index, p)` pairs by `p` with Python's stable
`list.sort`, maps each sorted entry of rank `rank` (0-based) to the candidate
`min(p * n / (rank + 1), 1.0)` stored at its *original* index, and then runs

    for i in range(n - 2, -1, -1):
        if corrected[i] > corrected[i + 1]:
            corrected[i] = corrected[i + 1]

over the array in original-index order.  Python's stable sort is modelled by
a stable insertion sort (`insertStable`/`sortByP`): an element is inserted
after all earlier elements with a key `≤` its own, which characterises the
unique stable sorted permutation that Timsort produces.
-/

/-- Python's `enumerate` starting at `i`: pairs every element with its index. -/
def pyEnumFrom (i : ℕ) : List α → List (ℕ × α)
  | [] => []
  | x :: xs => (i, x) :: pyEnumFrom (i + 1) xs

/-- Python's `enumerate(l)`. -/
def pyEnum (l : List α) : List (ℕ × α) := pyEnumFrom 0 l

/-- Stable insertion of one `(original_index, p)` pair into an
already-sorted-by-`p` list: the new pair goes after every existing pair with
a key less than or equal to its own. -/
def insertStable (x : ℕ × ℚ) : List (ℕ × ℚ) → List (ℕ × ℚ)
  | [] => [x]
  | y :: ys => if y.2 ≤ x.2 then y :: insertStable x ys else x :: y :: ys

/-- Stable sort by the `p` component, modelling `indexed_p.sort(key=lambda x: x[1])`. -/
def sortByP (l : List (ℕ × ℚ)) : List (ℕ × ℚ) :=
  l.foldl (fun acc x => insertStable x acc) []

/-- The scatter loop: `corrected = [0]*n` followed by
`corrected[original_index] = min(p_val * n / (rank + 1), 1.0)` for each entry
of the sorted list, `rank` being its 0-based position. -/
def scatterCorrected (n : ℕ) (sorted : List (ℕ × ℚ)) : List ℚ :=
  (pyEnum sorted).foldl
    (fun acc rip => acc.set rip.2.1 (ratMin (rip.2.2 * n / (rip.1 + 1)) 1))
    (List.replicate n 0)

/-- The in-place monotonicity scan
`for i in range(n-2, -1, -1): if corrected[i] > corrected[i+1]: corrected[i] = corrected[i+1]`.
Because the loop walks right to left, cell `i` is compared against the already
updated cell `i+1`; functionally each cell becomes the `min` of itself and the
updated cell to its right. -/
def monoPass : List ℚ → List ℚ
  | [] => []
  | [x] => [x]
  | x :: y :: rest =>
    match monoPass (y :: rest) with
    | [] => [x]
    | z :: zs => ratMin x z :: z :: zs

/-- Embedding of `compare_groups.multiple_testing_correction(p_values, method)`. -/
def multiple_testing_correction (p_values : List ℚ) (method : String) : List ℚ :=
  let n := p_values.length
  if method = "bonferroni" then
    p_values.map (fun p => ratMin (p * n) 1)
  else if method = "fdr" then
    let indexed_p := sortByP (pyEnum p_values)
    monoPass (scatterCorrected n indexed_p)
  else
    p_values

end CompareGroups

namespace StatsPlot

/-!
The function `stats_plot.fisher_exact_test` (stats_plot.py, lines 10-70).

The source defines two nested helpers, `factorial` (an iterative product)
and `combinations` (the raw-factorial binomial coefficient with explicit
out-of-range and boundary branches, using integer floor division), builds
the margins of the 2×2 table, returns `1.0` for an all-zero table, and
otherwise sums the hypergeometric point probabilities of every feasible
top-left cell value whose probability is at most the observed probability
plus `1e-10`, finally clipping at `1.0`.  Python's arbitrary-precision
integers are modelled by `ℕ`/`ℤ` and its float division of (exact) integers
by exact division in `ℚ`.
-/

/-- Python's two-argument `max` on integers: `max(a, b)` returns `a`
whenever `a ≥ b` and `b` otherwise. -/
def pyMaxZ (a b : ℤ) : ℤ := if b ≤ a then a else b

/-- Python's two-argument `min` on integers. -/
def pyMinZ (a b : ℤ) : ℤ := if a ≤ b then a else b

/-- The nested `factorial(n)` helper: `result = 1; for i in range(2, n + 1):
result *= i` with an early `return 1` for `n <= 1`. -/
def factorial (n : ℕ) : ℕ :=
  if n ≤ 1 then 1 else (List.range' 2 (n - 1)).foldl (· * ·) 1

/-- The nested `combinations(n, k)` helper: `0` out of range, `1` on the
boundary, and otherwise `factorial(n) // (factorial(k) * factorial(n - k))`
(integer floor division of raw factorials). -/
def combinations (n k : ℤ) : ℤ :=
  if k > n ∨ k < 0 then 0
  else if k = 0 ∨ k = n then 1
  else (factorial n.toNat / (factorial k.toNat * factorial (n - k).toNat) : ℕ)

/-- Python `range(lo, hi + 1)` over the integers. -/
def supportRange (lo hi : ℤ) : List ℤ :=
  (List.range (hi + 1 - lo).toNat).map (fun t : ℕ => lo + (t : ℤ))

/-- The numerical tolerance `1e-10` added to the observed probability. -/
def tol : ℚ := 1 / 10 ^ 10

/-- Embedding of `stats_plot.fisher_exact_test(a, b, c, d)`: two-sided exact test p-value
of the 2×2 table `[[a, b], [c, d]]`. -/
def fisher_exact_test (a b c d : ℕ) : ℚ :=
  let row1_total : ℤ := a + b
  let row2_total : ℤ := c + d
  let col1_total : ℤ := a + c
  let total : ℤ := a + b + c + d
  if total = 0 then 1
  else
    let observed_prob : ℚ :=
      ((combinations row1_total a * combinations row2_total c : ℤ) : ℚ) /
        ((combinations total col1_total : ℤ) : ℚ)
    let min_a := pyMaxZ 0 (col1_total - row2_total)
    let max_a := pyMinZ row1_total col1_total
    let p_value : ℚ :=
      ((supportRange min_a max_a).map (fun a_test =>
        let b_test := row1_total - a_test
        let c_test := col1_total - a_test
        let d_test := row2_total - c_test
        if 0 ≤ b_test ∧ 0 ≤ c_test ∧ 0 ≤ d_test then
          let prob : ℚ :=
            ((combinations row1_total a_test * combinations row2_total c_test : ℤ) : ℚ) /
              ((combinations total col1_total : ℤ) : ℚ)
          if prob ≤ observed_prob + tol then prob else 0
        else 0)).sum
    ratMin p_value 1

/-!
The specification's description of the two-sided exact test (for C4).

`spec_two_sided_p` is written from the spec's words, to be compared with the
embedded source: "the conditional distribution of the top-left cell value
`a'` given fixed margins is hypergeometric with support
`a' ∈ [max(0, col1−row2), min(row1, col1)]`; for every feasible `a'` compute
`P(a') = C(row1,a')·C(row2, col1−a') / C(total,col1)`; the two-sided p-value
is the sum of `P(a')` over all `a'` whose probability is ≤ the observed
probability `P(a)` plus a small numerical tolerance."  (`max(0, col1−row2)`
is natural-number truncated subtraction `col1 - row2` below.) -/

/-- Hypergeometric point probability `P(a') = C(row1,a')·C(row2, col1−a') /
C(total,col1)` of the spec. -/
def hypergeomProb (a b c d aP : ℕ) : ℚ :=
  (((a + b).choose aP * (c + d).choose ((a + c) - aP) : ℕ) : ℚ) /
    (((a + b + c + d).choose (a + c) : ℕ) : ℚ)

/-- The spec's two-sided p-value: the sum of `P(a')` over the support
`[max(0, col1−row2), min(row1, col1)]` restricted to those `a'` with
`P(a') ≤ P(a) + tol`. -/
def spec_two_sided_p (a b c d : ℕ) : ℚ :=
  ∑ aP in (Finset.Icc ((a + c) - (c + d)) (min (a + b) (a + c))).filter
      (fun aP => hypergeomProb a b c d aP ≤ hypergeomProb a b c d a + tol),
    hypergeomProb a b c d aP

end StatsPlot

namespace BatchStats

/-!
The function `batch_stats.batch_enrich` (batch_stats.py, lines 45-72).

Per modification row the source forms the Haldane-Anscombe-corrected counts
`a_corr = a + 0.5`, …, the corrected odds ratio
`or_ = (a_corr / n_corr) / (rest_a_corr / rest_n_corr)`, the log odds ratio
`np.log(or_)` and the standard error
`np.sqrt(1/a_corr + 1/n_corr + 1/rest_a_corr + 1/rest_n_corr)`.  The four
counts are `pandas` group sizes, i.e. natural numbers.  The corrected
quantities are exact rationals; only `log` and `sqrt` need `ℝ`.
-/

/-- The corrected odds ratio `or_ = (a_corr / n_corr) / (rest_a_corr / rest_n_corr)` with the `+ 0.5`
correction applied to every raw count (lines 47-52). -/
def or_corr (a n rest_a rest_n : ℕ) : ℚ :=
  (((a : ℚ) + 1/2) / ((n : ℚ) + 1/2)) / (((rest_a : ℚ) + 1/2) / ((rest_n : ℚ) + 1/2))

/-- The radicand of the standard error (line 53):
`1/a_corr + 1/n_corr + 1/rest_a_corr + 1/rest_n_corr`. -/
def se_sq (a n rest_a rest_n : ℕ) : ℚ :=
  1 / ((a : ℚ) + 1/2) + 1 / ((n : ℚ) + 1/2)
    + 1 / ((rest_a : ℚ) + 1/2) + 1 / ((rest_n : ℚ) + 1/2)

/-- The row's `logOR = np.log(or_)` (line 67). -/
noncomputable def batch_logOR (a n rest_a rest_n : ℕ) : ℝ :=
  Real.log ((or_corr a n rest_a rest_n : ℚ) : ℝ)

/-- The row's `SE = np.sqrt(1/a_corr + 1/n_corr + 1/rest_a_corr + 1/rest_n_corr)`
(line 53). -/
noncomputable def batch_SE (a n rest_a rest_n : ℕ) : ℝ :=
  Real.sqrt ((se_sq a n rest_a rest_n : ℚ) : ℝ)

end BatchStats

namespace MetaMerge

/-!
The functions `meta_merge.fixed_effect` and `meta_merge.random_effect` (meta_merge.py, lines 14-82).

A per-batch effect-size record carries `logOR` and `SE` (both floats,
modelled in `ℝ`).  `fixed_effect` computes `weights = 1 / SE**2`,
`pooled_logOR = Σ(w·logOR)/Σw`, `pooled_SE = sqrt(1/Σw)`.  For `len(df) ≥ 2`,
`random_effect` computes the same fixed estimate, the heterogeneity
`Q = Σ w·(logOR − fixed)²`, `df_deg = len(df) − 1`,
`tau2 = max(0, (Q − df_deg)/(Σw − Σw²/Σw))`, random weights
`w_star = 1/(SE² + tau2)` and the pooled `random = Σ(w_star·logOR)/Σw_star`.
The `len(df) ≤ 1` early returns of `random_effect` precede these formulas in
the source and are outside the `k ≥ 2` regime of the claims below.
-/

/-- One effect-size record (`logOR` and `SE` columns of the batch table). -/
structure Study where
  logOR : ℝ
  SE : ℝ

/-- Inverse-variance weight `weights = 1 / (df[SE] ** 2)` (line 25 / 58). -/
noncomputable def w (s : Study) : ℝ := 1 / s.SE ^ 2

/-- The weight sum `np.sum(weights)`. -/
noncomputable def sumW (l : List Study) : ℝ := (l.map w).sum

/-- The weighted sum `np.sum(weights * df[logOR])`. -/
noncomputable def sumWX (l : List Study) : ℝ := (l.map (fun s => w s * s.logOR)).sum

/-- The pooled estimate `pooled_logOR = np.sum(weights * df[logOR]) / np.sum(weights)`
(line 28); the identical expression `fixed` is recomputed at line 59 inside
`random_effect`. -/
noncomputable def fixed_pooled_logOR (l : List Study) : ℝ := sumWX l / sumW l

/-- The pooled error `pooled_SE = np.sqrt(1 / np.sum(weights))` (line 31). -/
noncomputable def fixed_pooled_SE (l : List Study) : ℝ := Real.sqrt (1 / sumW l)

/-- The heterogeneity statistic `Q = np.sum(w * (df[logOR] - fixed) ** 2)` (line 62). -/
noncomputable def Qstat (l : List Study) : ℝ :=
  (l.map (fun s => w s * (s.logOR - fixed_pooled_logOR l) ^ 2)).sum

/-- The sum of squared weights `(w**2).sum()`. -/
noncomputable def sumW2 (l : List Study) : ℝ := (l.map (fun s => w s ^ 2)).sum

/-- The estimator `tau2 = max(0, (Q - df_deg) / (w.sum() - (w**2).sum() / w.sum()))`
(line 66), with `df_deg = len(df) - 1` (line 63). -/
noncomputable def tau2 (l : List Study) : ℝ :=
  max 0 ((Qstat l - ((l.length : ℝ) - 1)) / (sumW l - sumW2 l / sumW l))

/-- Random-effect weight `w_star = 1 / (df[SE] ** 2 + tau2)` (line 69). -/
noncomputable def wStar (l : List Study) (s : Study) : ℝ := 1 / (s.SE ^ 2 + tau2 l)

/-- The pooled `random = np.sum(w_star * df[logOR]) / w_star.sum()` (line 72). -/
noncomputable def random_pooled_logOR (l : List Study) : ℝ :=
  (l.map (fun s => wStar l s * s.logOR)).sum / (l.map (wStar l)).sum

/-!
The `SE = 0` guard claimed by the spec (C8).

`meta_analysis_by_mod` (meta_merge.py, lines 96-107) filters each
modification's group only with `group.dropna(subset=[logOR, SE])` before
handing it to `fixed_effect` / `random_effect`.  `dropna` removes NaN
entries; a present value `0.0` is not NaN, so a record with `SE = 0` passes
the filter and `fixed_effect` computes its weight `1 / SE**2` anyway.
A pandas cell that may hold NaN is modelled as `Option ℝ` with `none` for
NaN — exactly the distinction `dropna` tests.
-/

/-- A raw row of the batch table as seen by `meta_analysis_by_mod`:
`logOR` and `SE` cells that may each be NaN (`none`). -/
structure RawStudy where
  logOR : Option ℝ
  SE : Option ℝ

/-- The row predicate of `group.dropna(subset=[logOR, SE])`: keep a row
iff both cells are present (non-NaN). -/
def dropnaKeep (r : RawStudy) : Bool := r.logOR.isSome && r.SE.isSome

/-- The filter `valid_group = group.dropna(subset=[logOR, SE])` (line 101) — the
only record filtering applied before pooling. -/
def valid_group (l : List RawStudy) : List RawStudy := l.filter dropnaKeep

end MetaMerge

namespace AnchorCoupling

/-!
The function `anchor_coupling.tag_anchor_modifications` (anchor_coupling.py, lines 10-68).

`tag_anchor_modifications` first calls `batch_predict_binding` (an external
binding predictor, out of the statistical core's scope per spec §1) and then
loops over its result list.  The embedding therefore takes the binding
results as input; each result carries the peptide's `mod_list` unchanged in
its `modifications` field (predict_binding.py line 303).  For a result with
a non-empty modification list the loop emits one record per `(pos, mod)`
pair, tagging `anchor` exactly when `pos in anchors`; for an empty list it
emits the single `Unmodified` record with `anchor_tag = "non_anchor"`
(lines 54-66).
-/

/-- Embedding of `extract_peptides.extract_mod_type`: the text before the first `[`,
e.g. `Oxidation[M] -> Oxidation`; unchanged when no `[` occurs. -/
def extract_mod_type (s : String) : String :=
  if s.contains '[' then (s.splitOn "[").headI else s

/-- Insertion of a number into a sorted list (for `sorted(list(anchors))`). -/
def insertNat (x : ℕ) : List ℕ → List ℕ
  | [] => [x]
  | y :: ys => if x ≤ y then x :: y :: ys else y :: insertNat x ys

/-- Python `sorted(...)` on a list of positions. -/
def sortNat : List ℕ → List ℕ
  | [] => []
  | x :: xs => insertNat x (sortNat xs)

/-- One entry of the `batch_predict_binding` output consumed by the loop:
`sequence`, `best_allele`, `binding_score`, the anchor-position set (kept as
a list) and the peptide's `modifications` list of `(position, mod)` pairs. -/
structure BindingResult where
  sequence : String
  best_allele : String
  binding_score : ℚ
  anchor_positions : List ℕ
  modifications : List (ℕ × String)

/-- One emitted coupling record (the dict appended at lines 43-53 / 56-66). -/
structure CouplingRecord where
  seq : String
  allele : String
  score : ℚ
  mod : String
  mod_position : Option ℕ
  mod_full : Option String
  anchor_tag : String
  anchor_positions : List ℕ
  sequence_length : ℕ

/-- The records emitted for a single binding result: the body of the
`for i, result in enumerate(binding_results)` loop. -/
def couplingFor (r : BindingResult) : List CouplingRecord :=
  match r.modifications with
  | [] =>
    [{ seq := r.sequence, allele := r.best_allele, score := r.binding_score,
       mod := "Unmodified", mod_position := none, mod_full := none,
       anchor_tag := "non_anchor", anchor_positions := sortNat r.anchor_positions,
       sequence_length := r.sequence.length }]
  | _ :: _ =>
    r.modifications.map (fun pm =>
      { seq := r.sequence, allele := r.best_allele, score := r.binding_score,
        mod := extract_mod_type pm.2, mod_position := some pm.1, mod_full := some pm.2,
        anchor_tag := if pm.1 ∈ r.anchor_positions then "anchor" else "non_anchor",
        anchor_positions := sortNat r.anchor_positions,
        sequence_length := r.sequence.length })

/-- Embedding of `anchor_coupling.tag_anchor_modifications`, as a function of the binding
results: the loop appends the records of every result in order. -/
def tag_anchor_modifications (results : List BindingResult) : List CouplingRecord :=
  results.flatMap couplingFor

end AnchorCoupling

/-!
Theorems.  First the claim-independent lemmas about the embedded
definitions, then the claim theorems, witnesses and counterexamples.
-/

theorem ratMin_eq_min (a b : ℚ) : ratMin a b = min a b := (min_def a b).symm

theorem ratMin_le_right (a b : ℚ) : ratMin a b ≤ b := by
  rw [ratMin_eq_min]; exact min_le_right a b

theorem ratMin_le_left (a b : ℚ) : ratMin a b ≤ a := by
  rw [ratMin_eq_min]; exact min_le_left a b

theorem ratMin_nonneg {a b : ℚ} (ha : 0 ≤ a) (hb : 0 ≤ b) : 0 ≤ ratMin a b := by
  unfold ratMin; split <;> assumption

namespace CompareGroups

/-- C1: the spec guarantees that `multiple_testing_correction` with method
`"fdr"` returns adjusted values with `adjustedP ≥ rawP`, `adjustedP ≤ 1`, and
non-decreasing along ascending raw p-values.  The code violates the first and
third guarantee: on raw p-values `[0.05, 0.01, 0.04]` it returns
`[0.03, 0.03, 0.06]`, so the entry with raw p `0.05` gets adjusted p `0.03 <
0.05`, and along ascending raw p (`0.01, 0.04, 0.05`, original indices
`1, 2, 0`) the adjusted values run `0.03, 0.06, 0.03`, which decreases at the
last step.  The cause: the monotonicity scan runs over the array in original
input order instead of the sorted-by-p order required by Benjamini-Hochberg. -/
theorem C1_fdr_guarantees_fail_on_code :
    multiple_testing_correction [1/20, 1/100, 1/25] "fdr" = [3/100, 3/100, 3/50]
    ∧ (3/100 : ℚ) < 1/20
    ∧ ¬ ((3 : ℚ)/50 ≤ 3/100) := by
  refine ⟨?_, by norm_num, by norm_num⟩
  norm_num [multiple_testing_correction, sortByP, insertStable, scatterCorrected,
    monoPass, ratMin, pyEnum, pyEnumFrom, List.replicate]
  decide

/-- C2: on raw p-values `[0.01, 0.04, 0.03, 0.2]` the code's Bonferroni output
matches the spec (`[0.04, 0.16, 0.12, 0.8]`), but its BH-FDR output is
`[0.04, 4/75, 0.06, 0.2]` where the spec expects `[0.04, 0.0533…, 0.0533…,
0.2]`: at original index 2 the code leaves `0.06` (= `3/50`), which differs
from the expected `4/75 ≈ 0.0533` by `1/150`, far beyond floating tolerance.
Again the cause is the monotonicity scan running in original order. -/
theorem C2_fdr_expected_output_diverges :
    multiple_testing_correction [1/100, 1/25, 3/100, 1/5] "bonferroni"
      = [1/25, 4/25, 3/25, 4/5]
    ∧ multiple_testing_correction [1/100, 1/25, 3/100, 1/5] "fdr"
      = [1/25, 4/75, 3/50, 1/5]
    ∧ (4 : ℚ)/75 + 1/200 < 3/50 := by
  refine ⟨by norm_num [multiple_testing_correction, ratMin], ?_, by norm_num⟩
  norm_num [multiple_testing_correction, sortByP, insertStable, scatterCorrected,
    monoPass, ratMin, pyEnum, pyEnumFrom, List.replicate]
  decide

end CompareGroups

namespace StatsPlot

theorem pyMaxZ_eq_max (a b : ℤ) : pyMaxZ a b = max a b := by
  rw [max_comm]; exact (max_def b a).symm

theorem pyMinZ_eq_min (a b : ℤ) : pyMinZ a b = min a b := (min_def a b).symm

theorem range'_two_foldl_mul (k : ℕ) :
    (List.range' 2 k).foldl (· * ·) 1 = (k + 1).factorial := by
  induction k with
  | zero => rfl
  | succ k ih =>
    rw [List.range'_1_concat, List.foldl_append, ih]
    simp [Nat.factorial_succ]
    ring

/-- The iterative `factorial` helper computes the mathematical factorial. -/
theorem factorial_eq (n : ℕ) : factorial n = n.factorial := by
  unfold factorial
  rcases Nat.lt_or_ge n 2 with h | h
  · interval_cases n <;> rfl
  · rw [if_neg (by omega), range'_two_foldl_mul]
    congr 1
    omega

theorem combinations_nonneg (n k : ℤ) : 0 ≤ combinations n k := by
  unfold combinations
  split
  · exact le_refl 0
  · split
    · exact zero_le_one
    · exact Int.natCast_nonneg _

/-- On natural inputs the raw-factorial `combinations` helper agrees with the
mathematical binomial coefficient. -/
theorem combinations_eq_choose (n k : ℕ) :
    combinations (n : ℤ) (k : ℤ) = (n.choose k : ℤ) := by
  unfold combinations
  rcases Nat.lt_or_ge n k with h | h
  · rw [if_pos (Or.inl (by exact_mod_cast h)), Nat.choose_eq_zero_of_lt h]
    simp
  · rw [if_neg (by omega)]
    by_cases h0 : k = 0 ∨ k = n
    · rw [if_pos (by omega)]
      rcases h0 with h0 | h0 <;> simp [h0, Nat.choose_self]
    · rw [if_neg (by omega)]
      have hk : k ≤ n := h
      rw [Nat.choose_eq_factorial_div_factorial hk]
      have h1 : ((n : ℤ)).toNat = n := Int.toNat_natCast n
      have h2 : ((k : ℤ)).toNat = k := Int.toNat_natCast k
      have h3 : ((n : ℤ) - (k : ℤ)).toNat = n - k := by omega
      rw [h1, h2, h3, factorial_eq, factorial_eq, factorial_eq]

theorem hypergeomProb_nonneg (a b c d aP : ℕ) : 0 ≤ hypergeomProb a b c d aP := by
  unfold hypergeomProb
  positivity

/-- Vandermonde's identity restricted to the feasible support of the table:
outside `[k ∸ r2, min r1 k]` one of the two binomial coefficients vanishes. -/
theorem sum_support_choose (r1 r2 k : ℕ) :
    ∑ aP in Finset.Icc (k - r2) (min r1 k), r1.choose aP * r2.choose (k - aP)
      = (r1 + r2).choose k := by
  rw [Nat.add_choose_eq, Finset.Nat.sum_antidiagonal_eq_sum_range_succ_mk]
  apply Finset.sum_subset
  · intro x hx
    simp only [Finset.mem_Icc] at hx
    simp only [Finset.mem_range]
    omega
  · intro x hx hxn
    simp only [Finset.mem_range] at hx
    simp only [Finset.mem_Icc, not_and_or, not_le] at hxn
    rcases hxn with h | h
    · rw [Nat.choose_eq_zero_of_lt (by omega : r2 < k - x), mul_zero]
    · rw [Nat.choose_eq_zero_of_lt (by omega : r1 < x), zero_mul]

/-- Over the full support the hypergeometric point probabilities sum to `1`. -/
theorem sum_support_hypergeomProb (a b c d : ℕ) :
    ∑ aP in Finset.Icc ((a + c) - (c + d)) (min (a + b) (a + c)),
      hypergeomProb a b c d aP = 1 := by
  have hD : 0 < (a + b + c + d).choose (a + c) := Nat.choose_pos (by omega)
  unfold hypergeomProb
  rw [← Finset.sum_div]
  rw [div_eq_one_iff_eq (by exact_mod_cast hD.ne')]
  rw [← Nat.cast_sum]
  norm_cast
  have h : a + b + (c + d) = a + b + c + d := by omega
  rw [sum_support_choose (a + b) (c + d) (a + c), h]

theorem spec_two_sided_p_nonneg (a b c d : ℕ) : 0 ≤ spec_two_sided_p a b c d :=
  Finset.sum_nonneg fun aP _ => hypergeomProb_nonneg a b c d aP

theorem spec_two_sided_p_le_one (a b c d : ℕ) : spec_two_sided_p a b c d ≤ 1 := by
  unfold spec_two_sided_p
  calc ∑ aP in (Finset.Icc ((a + c) - (c + d)) (min (a + b) (a + c))).filter
        (fun aP => hypergeomProb a b c d aP ≤ hypergeomProb a b c d a + tol),
      hypergeomProb a b c d aP
      ≤ ∑ aP in Finset.Icc ((a + c) - (c + d)) (min (a + b) (a + c)),
        hypergeomProb a b c d aP :=
        Finset.sum_le_sum_of_subset_of_nonneg (Finset.filter_subset _ _)
          (fun aP _ _ => hypergeomProb_nonneg a b c d aP)
    _ = 1 := sum_support_hypergeomProb a b c d

theorem list_range_map_sum (n : ℕ) (f : ℕ → ℚ) :
    ((List.range n).map f).sum = ∑ t in Finset.range n, f t := by
  induction n with
  | zero => rfl
  | succ n ih =>
    rw [List.range_succ, List.map_append, List.sum_append, Finset.sum_range_succ, ih]
    simp

/-- C4: for every 2×2 table of non-negative integers with positive total,
`fisher_exact_test` equals the spec's description: the sum of the
hypergeometric point probabilities `P(a') = C(row1,a')·C(row2,col1−a') /
C(total,col1)` over all `a'` in the support `[max(0, col1−row2),
min(row1, col1)]` whose probability is at most the observed probability
plus the tolerance. -/
theorem C4_fisher_exact_test_eq_spec (a b c d : ℕ) (h : 0 < a + b + c + d) :
    fisher_exact_test a b c d = spec_two_sided_p a b c d := by
  have hT : ¬ ((a : ℤ) + (b : ℤ) + (c : ℤ) + (d : ℤ) = 0) := by omega
  simp only [fisher_exact_test]
  rw [if_neg hT]
  have hlo : pyMaxZ 0 ((a : ℤ) + c - ((c : ℤ) + d)) = (((a + c) - (c + d) : ℕ) : ℤ) := by
    unfold pyMaxZ; split <;> omega
  have hhi : pyMinZ ((a : ℤ) + b) ((a : ℤ) + c) = ((min (a + b) (a + c) : ℕ) : ℤ) := by
    unfold pyMinZ; split <;> omega
  rw [hlo, hhi]
  set loN : ℕ := (a + c) - (c + d) with hloN
  set hiN : ℕ := min (a + b) (a + c) with hhiN
  have htoNat : (((hiN : ℤ)) + 1 - (loN : ℤ)).toNat = hiN + 1 - loN := by omega
  unfold supportRange
  rw [htoNat, List.map_map, list_range_map_sum]
  -- rewrite the spec side as a sum over the same range
  have hspec : spec_two_sided_p a b c d
      = ∑ t in Finset.range (hiN + 1 - loN),
          (if hypergeomProb a b c d (loN + t) ≤ hypergeomProb a b c d a + tol then
            hypergeomProb a b c d (loN + t) else 0) := by
    unfold spec_two_sided_p
    rw [Finset.sum_filter, ← Nat.Ico_succ_right, Finset.sum_Ico_eq_sum_range]
  rw [hspec]
  suffices hfin : ∀ t ∈ Finset.range (hiN + 1 - loN),
      ((fun a_test : ℤ =>
        if 0 ≤ (a : ℤ) + b - a_test ∧ 0 ≤ (a : ℤ) + c - a_test
            ∧ 0 ≤ (c : ℤ) + d - ((a : ℤ) + c - a_test) then
          if ((combinations ((a : ℤ) + b) a_test
                * combinations ((c : ℤ) + d) ((a : ℤ) + c - a_test) : ℤ) : ℚ) /
              ((combinations ((a : ℤ) + b + c + d) ((a : ℤ) + c) : ℤ) : ℚ)
              ≤ ((combinations ((a : ℤ) + b) a * combinations ((c : ℤ) + d) c : ℤ) : ℚ) /
                  ((combinations ((a : ℤ) + b + c + d) ((a : ℤ) + c) : ℤ) : ℚ) + tol then
            ((combinations ((a : ℤ) + b) a_test
                * combinations ((c : ℤ) + d) ((a : ℤ) + c - a_test) : ℤ) : ℚ) /
              ((combinations ((a : ℤ) + b + c + d) ((a : ℤ) + c) : ℤ) : ℚ)
          else 0
        else 0) ∘ fun t : ℕ => (loN : ℤ) + t) t
      = (if hypergeomProb a b c d (loN + t) ≤ hypergeomProb a b c d a + tol then
          hypergeomProb a b c d (loN + t) else 0) by
    rw [Finset.sum_congr rfl hfin]
    rw [ratMin]
    rw [if_pos (by rw [← hspec]; exact spec_two_sided_p_le_one a b c d)]
  intro t ht
  simp only [Finset.mem_range] at ht
  have haP1 : loN + t ≤ hiN := by omega
  have haP2 : loN ≤ loN + t := by omega
  set aP : ℕ := loN + t with haP
  have hble : aP ≤ a + b := by omega
  have hcle : aP ≤ a + c := by omega
  have hdge : (a + c) - aP ≤ c + d := by omega
  have hguard : 0 ≤ (a : ℤ) + b - ((loN : ℤ) + t) ∧ 0 ≤ (a : ℤ) + c - ((loN : ℤ) + t)
      ∧ 0 ≤ (c : ℤ) + d - ((a : ℤ) + c - ((loN : ℤ) + t)) := by
    refine ⟨by omega, by omega, by omega⟩
  have e1 : combinations ((a : ℤ) + b) ((loN : ℤ) + t) = ((a + b).choose aP : ℤ) := by
    rw [show ((a : ℤ) + b) = ((a + b : ℕ) : ℤ) by push_cast; ring,
      show ((loN : ℤ) + t) = ((aP : ℕ) : ℤ) by omega]
    exact combinations_eq_choose _ _
  have e2 : combinations ((c : ℤ) + d) ((a : ℤ) + c - ((loN : ℤ) + t))
      = ((c + d).choose ((a + c) - aP) : ℤ) := by
    rw [show ((c : ℤ) + d) = ((c + d : ℕ) : ℤ) by push_cast; ring,
      show ((a : ℤ) + c - ((loN : ℤ) + t)) = (((a + c) - aP : ℕ) : ℤ) by omega]
    exact combinations_eq_choose _ _
  have e3 : combinations ((a : ℤ) + b + c + d) ((a : ℤ) + c)
      = ((a + b + c + d).choose (a + c) : ℤ) := by
    rw [show ((a : ℤ) + b + c + d) = ((a + b + c + d : ℕ) : ℤ) by push_cast; ring,
      show ((a : ℤ) + c) = ((a + c : ℕ) : ℤ) by push_cast; ring]
    exact combinations_eq_choose _ _
  have e4 : combinations ((a : ℤ) + b) (a : ℤ) = ((a + b).choose a : ℤ) := by
    rw [show ((a : ℤ) + b) = ((a + b : ℕ) : ℤ) by push_cast; ring]
    exact combinations_eq_choose _ _
  have e5 : combinations ((c : ℤ) + d) (c : ℤ) = ((c + d).choose c : ℤ) := by
    rw [show ((c : ℤ) + d) = ((c + d : ℕ) : ℤ) by push_cast; ring]
    exact combinations_eq_choose _ _
  have hobs : hypergeomProb a b c d a
      = ((((a + b).choose a * (c + d).choose c : ℕ) : ℚ)
          / (((a + b + c + d).choose (a + c) : ℕ) : ℚ)) := by
    unfold hypergeomProb
    rw [show (a + c) - a = c by omega]
  simp only [Function.comp_apply, if_pos hguard, e1, e2, e3, e4, e5]
  rw [hobs]
  unfold hypergeomProb
  push_cast
  rfl

/-- Witness for C4 at the concrete table `a=b=c=d=1`. -/
theorem C4_witness : 0 < 1 + 1 + 1 + 1
    ∧ fisher_exact_test 1 1 1 1 = spec_two_sided_p 1 1 1 1 :=
  ⟨by decide, C4_fisher_exact_test_eq_spec 1 1 1 1 (by decide)⟩

theorem fisher_exact_test_nonneg (a b c d : ℕ) : 0 ≤ fisher_exact_test a b c d := by
  simp only [fisher_exact_test]
  split
  · exact zero_le_one
  · refine ratMin_nonneg (List.sum_nonneg ?_) zero_le_one
    intro x hx
    simp only [List.mem_map] at hx
    obtain ⟨z, _, rfl⟩ := hx
    split
    · split
      · refine div_nonneg ?_ ?_
        · exact_mod_cast mul_nonneg (combinations_nonneg _ _) (combinations_nonneg _ _)
        · exact_mod_cast combinations_nonneg _ _
      · exact le_refl 0
    · exact le_refl 0

theorem fisher_exact_test_le_one (a b c d : ℕ) : fisher_exact_test a b c d ≤ 1 := by
  simp only [fisher_exact_test]
  split
  · exact le_refl 1
  · exact ratMin_le_right _ _

/-- C5 (amended): `fisher_exact_test` always returns a p-value in `[0, 1]`,
and a zero-total table yields p = 1.0; but p = 1.0 does not happen *only* at
zero total (the converse direction fails on some nonzero tables). -/
theorem C5_p_in_unit_interval_and_total_zero (a b c d : ℕ) :
    0 ≤ fisher_exact_test a b c d ∧ fisher_exact_test a b c d ≤ 1
    ∧ (a + b + c + d = 0 → fisher_exact_test a b c d = 1) := by
  refine ⟨fisher_exact_test_nonneg a b c d, fisher_exact_test_le_one a b c d, fun h0 => ?_⟩
  simp only [fisher_exact_test]
  rw [if_pos (by omega)]

/-- The table `a=1, b=c=d=0` has positive total yet p-value exactly `1.0`,
refuting the claim that p = 1.0 happens *exactly* when the total is zero. -/
theorem C5_counterexample : fisher_exact_test 1 0 0 0 = 1 ∧ 1 + 0 + 0 + 0 ≠ 0 := by
  constructor
  · simp only [fisher_exact_test]
    norm_num [pyMaxZ, pyMinZ, supportRange]
    rw [show List.range 1 = [0] from rfl]
    simp only [List.map_cons, List.map_nil, List.sum_cons, List.sum_nil, Function.comp_apply]
    norm_num [combinations, factorial, tol, ratMin]
  · decide

/-- Witness for C5 at the all-zero table, including the degenerate-input
branch `total = 0 → p = 1`. -/
theorem C5_witness : 0 ≤ fisher_exact_test 0 0 0 0 ∧ fisher_exact_test 0 0 0 0 ≤ 1
    ∧ fisher_exact_test 0 0 0 0 = 1 :=
  ⟨(C5_p_in_unit_interval_and_total_zero 0 0 0 0).1,
    (C5_p_in_unit_interval_and_total_zero 0 0 0 0).2.1,
    (C5_p_in_unit_interval_and_total_zero 0 0 0 0).2.2 rfl⟩

end StatsPlot

namespace BatchStats

theorem or_corr_pos (a n rest_a rest_n : ℕ) : 0 < or_corr a n rest_a rest_n := by
  unfold or_corr
  positivity

theorem se_sq_pos (a n rest_a rest_n : ℕ) : 0 < se_sq a n rest_a rest_n := by
  unfold se_sq
  positivity

/-- C6: `batch_enrich` applies the Haldane-Anscombe correction and returns
`logOR = ln(((a+0.5)/(n+0.5)) / ((rest_a+0.5)/(rest_n+0.5)))` and
`SE = sqrt(1/(a+0.5) + 1/(n+0.5) + 1/(rest_a+0.5) + 1/(rest_n+0.5))`, and
both are finite for every choice of non-negative integer counts (including
all-zero): the argument of `ln` and the radicand of `sqrt` are strictly
positive rationals, which is exactly the region where the floating-point
`log`/`sqrt` are finite, and `SE` itself is strictly positive. -/
theorem C6_batch_enrich_logOR_SE (a n rest_a rest_n : ℕ) :
    batch_logOR a n rest_a rest_n
      = Real.log ((((a : ℝ) + 1/2) / ((n : ℝ) + 1/2))
          / (((rest_a : ℝ) + 1/2) / ((rest_n : ℝ) + 1/2)))
    ∧ batch_SE a n rest_a rest_n
      = Real.sqrt (1 / ((a : ℝ) + 1/2) + 1 / ((n : ℝ) + 1/2)
          + 1 / ((rest_a : ℝ) + 1/2) + 1 / ((rest_n : ℝ) + 1/2))
    ∧ 0 < or_corr a n rest_a rest_n
    ∧ 0 < se_sq a n rest_a rest_n
    ∧ 0 < batch_SE a n rest_a rest_n := by
  refine ⟨?_, ?_, or_corr_pos a n rest_a rest_n, se_sq_pos a n rest_a rest_n, ?_⟩
  · unfold batch_logOR or_corr
    push_cast
    rfl
  · unfold batch_SE se_sq
    push_cast
    rfl
  · unfold batch_SE
    refine Real.sqrt_pos.mpr ?_
    exact_mod_cast se_sq_pos a n rest_a rest_n

end BatchStats

namespace MetaMerge

theorem sumsq_le_sq_sum (xs : List ℝ) (h : ∀ x ∈ xs, 0 ≤ x) :
    (xs.map (fun x => x ^ 2)).sum ≤ xs.sum ^ 2 := by
  induction xs with
  | nil => simp
  | cons x xs ih =>
    simp only [List.map_cons, List.sum_cons]
    have hx : 0 ≤ x := h x (by simp)
    have hxs : ∀ y ∈ xs, 0 ≤ y := fun y hy => h y (by simp [hy])
    have hs : 0 ≤ xs.sum := List.sum_nonneg hxs
    have hih := ih hxs
    nlinarith [hih, hx, hs]

theorem w_nonneg (s : Study) : 0 ≤ w s := div_nonneg zero_le_one (sq_nonneg _)

theorem sumW_nonneg (l : List Study) : 0 ≤ sumW l := by
  refine List.sum_nonneg ?_
  intro x hx
  simp only [List.mem_map] at hx
  obtain ⟨s, _, rfl⟩ := hx
  exact w_nonneg s

/-- The denominator `Σw − Σw²/Σw` of the τ² estimator is non-negative. -/
theorem tau2_denom_nonneg (l : List Study) : 0 ≤ sumW l - sumW2 l / sumW l := by
  have h2 : sumW2 l ≤ sumW l ^ 2 := by
    have : sumW2 l = ((l.map w).map (fun x => x ^ 2)).sum := by
      unfold sumW2
      rw [List.map_map]
      rfl
    rw [this]
    refine sumsq_le_sq_sum (l.map w) ?_
    intro x hx
    simp only [List.mem_map] at hx
    obtain ⟨s, _, rfl⟩ := hx
    exact w_nonneg s
  rcases eq_or_lt_of_le (sumW_nonneg l) with hS | hS
  · rw [← hS]
    simp
  · rw [sub_nonneg, div_le_iff₀ hS]
    nlinarith [h2]

/-- C7: for `k ≥ 2` records with positive standard errors, the
DerSimonian-Laird `τ²` of `random_effect` is non-negative, and whenever
`Q ≤ df = k − 1` it is exactly `0` and the random-effect pooled `logOR`
coincides with the fixed-effect pooled `logOR` of the same records. -/
theorem C7_random_effect_tau2 (l : List Study) (hk : 2 ≤ l.length)
    (hse : ∀ s ∈ l, 0 < s.SE) :
    0 ≤ tau2 l
    ∧ (Qstat l ≤ (l.length : ℝ) - 1 →
        tau2 l = 0 ∧ random_pooled_logOR l = fixed_pooled_logOR l) := by
  refine ⟨le_max_left 0 _, fun hq => ?_⟩
  have htau : tau2 l = 0 := by
    unfold tau2
    refine max_eq_left ?_
    refine div_nonpos_iff.mpr (Or.inr ⟨by linarith, tau2_denom_nonneg l⟩)
  refine ⟨htau, ?_⟩
  unfold random_pooled_logOR fixed_pooled_logOR sumWX sumW wStar w
  rw [htau]
  simp only [add_zero]

/-- Witness for C7 on two records `logOR = 0, SE = 1`, where `Q = 0 ≤ df = 1`. -/
theorem C7_witness :
    0 ≤ tau2 [⟨0, 1⟩, ⟨0, 1⟩]
    ∧ tau2 [⟨0, 1⟩, ⟨0, 1⟩] = 0
    ∧ random_pooled_logOR [⟨0, 1⟩, ⟨0, 1⟩] = fixed_pooled_logOR [⟨0, 1⟩, ⟨0, 1⟩] := by
  have h := C7_random_effect_tau2 [⟨0, 1⟩, ⟨0, 1⟩] (by simp)
    (by
      intro s hs
      simp only [List.mem_cons, List.not_mem_nil, or_false] at hs
      rcases hs with rfl | rfl <;> norm_num)
  have hq : Qstat [(⟨0, 1⟩ : Study), ⟨0, 1⟩]
      ≤ (([⟨0, 1⟩, ⟨0, 1⟩] : List Study).length : ℝ) - 1 := by
    norm_num [Qstat, w, fixed_pooled_logOR, sumWX, sumW]
  exact ⟨h.1, (h.2 hq).1, (h.2 hq).2⟩

/-- C9: with a single record of positive `SE`, `fixed_effect` returns the
record's own `logOR` and `SE` unchanged. -/
theorem C9_fixed_effect_single_study (x se : ℝ) (h : 0 < se) :
    fixed_pooled_logOR [⟨x, se⟩] = x ∧ fixed_pooled_SE [⟨x, se⟩] = se := by
  have hne : se ≠ 0 := ne_of_gt h
  constructor
  · simp only [fixed_pooled_logOR, sumWX, sumW, w, List.map_cons, List.map_nil,
      List.sum_cons, List.sum_nil, add_zero]
    field_simp
  · simp only [fixed_pooled_SE, sumW, w, List.map_cons, List.map_nil,
      List.sum_cons, List.sum_nil, add_zero]
    rw [one_div_one_div, Real.sqrt_sq h.le]

/-- Witness for C9 at `logOR = 2, SE = 1`. -/
theorem C9_witness :
    fixed_pooled_logOR [⟨2, 1⟩] = 2 ∧ fixed_pooled_SE [⟨2, 1⟩] = 1 :=
  C9_fixed_effect_single_study 2 1 (by norm_num)

/-- C8: the code has no `SE = 0` guard — a record with present `logOR = 1`
and present `SE = 0` survives the only filter (`dropna`) unchanged, so it is
*not* excluded from pooling as the spec requires; `fixed_effect` then uses
its weight `1/SE² = 1/0`, which in IEEE arithmetic is `+inf` and poisons the
pooled sums. -/
theorem C8_se_zero_record_not_excluded :
    valid_group [⟨some 1, some 0⟩] = [⟨some 1, some 0⟩]
    ∧ dropnaKeep ⟨some 1, some 0⟩ = true := ⟨rfl, rfl⟩

end MetaMerge

namespace AnchorCoupling

/-- C10: every peptide whose modification list is empty contributes exactly
one record to `tag_anchor_modifications`, with `mod = "Unmodified"` and
`anchor_tag = "non_anchor"` (never `"anchor"`), so unmodified peptides always
count toward the non-anchor column downstream. -/
theorem C10_unmodified_single_non_anchor (results : List BindingResult)
    (r : BindingResult) (hr : r ∈ results) (hempty : r.modifications = []) :
    tag_anchor_modifications results = results.flatMap couplingFor
    ∧ couplingFor r
      = [{ seq := r.sequence, allele := r.best_allele, score := r.binding_score,
           mod := "Unmodified", mod_position := none, mod_full := none,
           anchor_tag := "non_anchor", anchor_positions := sortNat r.anchor_positions,
           sequence_length := r.sequence.length }]
    ∧ (couplingFor r).length = 1
    ∧ ∀ cr ∈ couplingFor r,
        cr.mod = "Unmodified" ∧ cr.anchor_tag = "non_anchor" ∧ cr.anchor_tag ≠ "anchor" := by
  have hone : couplingFor r
      = [{ seq := r.sequence, allele := r.best_allele, score := r.binding_score,
           mod := "Unmodified", mod_position := none, mod_full := none,
           anchor_tag := "non_anchor", anchor_positions := sortNat r.anchor_positions,
           sequence_length := r.sequence.length }] := by
    unfold couplingFor
    rw [hempty]
  refine ⟨rfl, hone, by rw [hone]; rfl, ?_⟩
  intro cr hcr
  rw [hone, List.mem_singleton] at hcr
  subst hcr
  refine ⟨rfl, rfl, by intro h; simp at h⟩

/-- Witness for C10 on a one-peptide result list with no modifications. -/
theorem C10_witness :
    (couplingFor ⟨"ADMAHISGL", "A*02:01", 9/10, [2, 9], []⟩).length = 1
    ∧ ∀ cr ∈ couplingFor ⟨"ADMAHISGL", "A*02:01", 9/10, [2, 9], []⟩,
        cr.mod = "Unmodified" ∧ cr.anchor_tag = "non_anchor" ∧ cr.anchor_tag ≠ "anchor" := by
  have h := C10_unmodified_single_non_anchor
    [⟨"ADMAHISGL", "A*02:01", 9/10, [2, 9], []⟩]
    ⟨"ADMAHISGL", "A*02:01", 9/10, [2, 9], []⟩
    (List.mem_singleton.mpr rfl) rfl
  exact ⟨h.2.2.1, h.2.2.2⟩

end AnchorCoupling
